import Mathlib

/-!
Verification of the ProTCL repository core in a shallow Lean embedding.

The embedding translates the joint-scoring core (`src/models/ProTCL.py`),
the metric/threshold engine and training loop (`src/models/ProTCLTrainer.py`),
and the vocabulary construction (`src/data/datasets.py`) into executable Lean
definitions.  Tensors are modeled as lists of rationals (exact arithmetic in
place of floating point), Python's fallible operations return `Except`/`Option`,
and the stateful training loop becomes explicit folds over event lists.
-/

/- ================================================================
   Joint Scorer (`src/models/ProTCL.py`)
   ================================================================ -/

/-- Chunk size used by `_get_joint_embeddings`:
`chunk_size = (num_sequences + num_chunks - 1) // num_chunks` (ceiling division). -/
def chunk_size_of (num_sequences num_chunks : ℕ) : ℕ :=
  (num_sequences + num_chunks - 1) / num_chunks

/-- The sequence of slices `rows[i:i+cs]` produced by
`for i in range(0, len(rows), cs)`.  For `cs = 0` Python's `range` raises
`ValueError`; the model returns `[]` there (that branch is outside every claim,
which all require a positive chunk size). -/
def listChunks {α : Type} (rows : List α) (cs : ℕ) : List (List α) :=
  if rows.isEmpty ∨ cs = 0 then []
  else rows.take cs :: listChunks (rows.drop cs) cs
termination_by rows.length
decreasing_by
  rcases not_or.mp (by assumption) with ⟨h1, h2⟩
  have hpos : 0 < rows.length := List.length_pos.mpr (by simpa using h1)
  simp only [List.length_drop]
  omega

/-- One chunk's cross-product expansion: `P_e_chunk.unsqueeze(1).expand(-1, num_labels, -1)`
flattened row-major, concatenated (dim=1) with `L_e.unsqueeze(0).expand(current_chunk_size, -1, -1)`
flattened row-major.  Row `r * num_labels + j` of the result is `chunk[r] ++ L_e[j]`. -/
def expandChunk (chunk L_e : List (List ℚ)) : List (List ℚ) :=
  chunk.flatMap (fun p => L_e.map (fun l => p ++ l))

/-- The chunks of `P_e` formed in `_get_joint_embeddings`. -/
def chunks_of (P_e : List (List ℚ)) (num_chunks : ℕ) : List (List (List ℚ)) :=
  listChunks P_e (chunk_size_of P_e.length num_chunks)

/-- `_get_joint_embeddings(P_e, L_e, num_chunks)`: expand each chunk of protein
embeddings against the full label set, concatenate the chunks (`torch.cat(..., dim=0)`),
and return the joint embeddings together with `num_sequences` and `num_labels`. -/
def get_joint_embeddings (P_e L_e : List (List ℚ)) (num_chunks : ℕ := 15) :
    List (List ℚ) × ℕ × ℕ :=
  (((chunks_of P_e num_chunks).map (fun c => expandChunk c L_e)).flatten,
    P_e.length, L_e.length)

/-- Dot product of two equal-length vectors (`nn.Linear` weight-row action). -/
def vecDot (w x : List ℚ) : ℚ := ((w.zip x).map (fun p => p.1 * p.2)).sum

/-- `nn.Linear(W, b)` applied to one input vector. -/
def linearMap (W : List (List ℚ)) (b : List ℚ) (x : List ℚ) : List ℚ :=
  (W.zip b).map (fun wb => vecDot wb.1 x + wb.2)

/-- `nn.ReLU()` applied to one vector. -/
def reluVec (x : List ℚ) : List ℚ := x.map (fun a => max a 0)

/-- Parameters of the `get_mlp` head: a list of hidden `Linear`+`ReLU` layers
(weight matrix and bias each) followed by the final one-neuron `Linear`. -/
structure MLPParams where
  hidden : List (List (List ℚ) × List ℚ)
  outWeight : List ℚ
  outBias : ℚ

/-- The scalar score the `get_mlp` head assigns to one joint-embedding row. -/
def mlpScore (m : MLPParams) (x : List ℚ) : ℚ :=
  vecDot m.outWeight (m.hidden.foldl (fun v wb => reluVec (linearMap wb.1 wb.2 v)) x)
    + m.outBias

/-- `self.output_layer(joint_embeddings)`: `Linear` and `ReLU` modules act on
the last dimension, so the MLP maps each row of the 2-D input independently. -/
def output_layer_rowwise (m : MLPParams) (rows : List (List ℚ)) : List ℚ :=
  rows.map (mlpScore m)

/-- Row-major `logits.reshape(num_sequences, num_labels)` of a flat vector. -/
def reshape_rows (xs : List ℚ) (cols : ℕ) : List (List ℚ) := listChunks xs cols

/-- The joint-scoring tail of `ProTCL.forward`, starting from the projected
embeddings `P_e`, `L_e`: joint embeddings, MLP head, reshape to
`[num_sequences, num_labels]`. -/
def model_forward_logits (P_e L_e : List (List ℚ)) (m : MLPParams)
    (num_chunks : ℕ := 15) : List (List ℚ) :=
  let je := get_joint_embeddings P_e L_e num_chunks
  reshape_rows (output_layer_rowwise m je.1) je.2.2

theorem chunk_size_of_pos (n k : ℕ) (hk : 1 ≤ k) (hn : 1 ≤ n) :
    1 ≤ chunk_size_of n k := by
  unfold chunk_size_of
  rw [Nat.one_le_div_iff (by omega)]
  omega

theorem listChunks_eq_nil_iff {α : Type} (rows : List α) (cs : ℕ) :
    listChunks rows cs = [] ↔ (rows = [] ∨ cs = 0) := by
  rw [listChunks]
  split
  · rename_i h
    simpa using (by simpa using h : rows.isEmpty = true ∨ cs = 0)
  · rename_i h
    simp only [not_or] at h
    simp [List.cons_ne_nil]
    exact ⟨by simpa using h.1, h.2⟩

theorem listChunks_flatten {α : Type} (cs : ℕ) (hcs : 1 ≤ cs) (rows : List α) :
    (listChunks rows cs).flatten = rows := by
  rw [listChunks]
  split
  · rename_i h
    rcases h with h | h
    · simp [List.isEmpty_iff.mp h]
    · omega
  · simp only [List.flatten_cons, listChunks_flatten cs hcs (rows.drop cs)]
    exact List.take_append_drop cs rows
termination_by rows.length
decreasing_by
  rcases not_or.mp (by assumption) with ⟨h1, h2⟩
  have hpos : 0 < rows.length := List.length_pos.mpr (by simpa using h1)
  simp only [List.length_drop]
  omega

theorem listChunks_length {α : Type} (cs : ℕ) (hcs : 1 ≤ cs) (rows : List α) :
    (listChunks rows cs).length = (rows.length + cs - 1) / cs := by
  rw [listChunks]
  split
  · rename_i h
    rcases h with h | h
    · simp [List.isEmpty_iff.mp h]
      exact (Nat.div_eq_of_lt (by omega)).symm
    · omega
  · rename_i h
    rcases not_or.mp h with ⟨h1, h2⟩
    have hpos : 0 < rows.length := List.length_pos.mpr (by simpa using h1)
    simp only [List.length_cons, listChunks_length cs hcs (rows.drop cs), List.length_drop]
    rcases Nat.lt_or_ge rows.length cs with hlt | hge
    · have hz : rows.length - cs = 0 := by omega
      rw [hz]
      have e1 : (0 + cs - 1) / cs = 0 := Nat.div_eq_of_lt (by omega)
      have e2 : (rows.length + cs - 1) / cs = 1 := Nat.div_eq_of_lt_le (by omega) (by omega)
      omega
    · have e1 : rows.length - cs + cs - 1 = rows.length - 1 := by omega
      have e2 : rows.length + cs - 1 = (rows.length - 1) + cs := by omega
      rw [e1, e2, Nat.add_div_right _ (by omega)]
termination_by rows.length
decreasing_by
  rcases not_or.mp (by assumption) with ⟨h1, h2⟩
  have hpos : 0 < rows.length := List.length_pos.mpr (by simpa using h1)
  simp only [List.length_drop]
  omega

theorem listChunks_dropLast_length {α : Type} (cs : ℕ) (hcs : 1 ≤ cs) (rows : List α) :
    ∀ c ∈ (listChunks rows cs).dropLast, c.length = cs := by
  rw [listChunks]
  split
  · simp
  · rename_i h
    rcases not_or.mp h with ⟨h1, h2⟩
    by_cases hrest : listChunks (rows.drop cs) cs = []
    · simp [hrest]
    · rw [List.dropLast_cons_of_ne_nil hrest]
      intro c hc
      rcases List.mem_cons.mp hc with rfl | hc'
      · have hlen : cs < rows.length := by
          rcases not_or.mp ((listChunks_eq_nil_iff (rows.drop cs) cs).not.mp hrest) with ⟨hd, _⟩
          have : 0 < (rows.drop cs).length := List.length_pos.mpr hd
          simp only [List.length_drop] at this
          omega
        simp [List.length_take]
        omega
      · exact listChunks_dropLast_length cs hcs (rows.drop cs) c hc'
termination_by rows.length
decreasing_by
  rcases not_or.mp (by assumption) with ⟨h1, h2⟩
  have hpos : 0 < rows.length := List.length_pos.mpr (by simpa using h1)
  simp only [List.length_drop]
  omega

theorem listChunks_mem_length {α : Type} (cs : ℕ) (hcs : 1 ≤ cs) (rows : List α) :
    ∀ c ∈ listChunks rows cs, 1 ≤ c.length ∧ c.length ≤ cs := by
  rw [listChunks]
  split
  · simp
  · rename_i h
    rcases not_or.mp h with ⟨h1, h2⟩
    have hpos : 0 < rows.length := List.length_pos.mpr (by simpa using h1)
    intro c hc
    rcases List.mem_cons.mp hc with rfl | hc'
    · simp [List.length_take]
      omega
    · exact listChunks_mem_length cs hcs (rows.drop cs) c hc'
termination_by rows.length
decreasing_by
  rcases not_or.mp (by assumption) with ⟨h1, h2⟩
  have hpos : 0 < rows.length := List.length_pos.mpr (by simpa using h1)
  simp only [List.length_drop]
  omega

theorem chunk_count_le_num_chunks (n k : ℕ) (hk : 1 ≤ k) (hn : 1 ≤ n) :
    (n + chunk_size_of n k - 1) / chunk_size_of n k ≤ k := by
  have hcs : 1 ≤ chunk_size_of n k := chunk_size_of_pos n k hk hn
  have h1 : k * ((n + k - 1) / k) + (n + k - 1) % k = n + k - 1 :=
    Nat.div_add_mod (n + k - 1) k
  have h2 : (n + k - 1) % k < k := Nat.mod_lt _ (by omega)
  have hnk : n ≤ k * chunk_size_of n k := by
    unfold chunk_size_of
    omega
  rw [← Nat.lt_succ_iff, Nat.div_lt_iff_lt_mul (by omega : 0 < chunk_size_of n k),
    Nat.succ_mul]
  have : k * chunk_size_of n k = chunk_size_of n k * k := Nat.mul_comm _ _
  omega

theorem chunks_expand_flatten (L_e : List (List ℚ)) (cs : ℕ) (hcs : 1 ≤ cs)
    (rows : List (List ℚ)) :
    ((listChunks rows cs).map (fun c => expandChunk c L_e)).flatten
      = expandChunk rows L_e := by
  rw [listChunks]
  split
  · rename_i h
    rcases h with h | h
    · simp [List.isEmpty_iff.mp h, expandChunk]
    · omega
  · simp only [List.map_cons, List.flatten_cons,
      chunks_expand_flatten L_e cs hcs (rows.drop cs)]
    rw [expandChunk, expandChunk, expandChunk, ← List.flatMap_append,
      List.take_append_drop]
termination_by rows.length
decreasing_by
  rcases not_or.mp (by assumption) with ⟨h1, h2⟩
  have hpos : 0 < rows.length := List.length_pos.mpr (by simpa using h1)
  simp only [List.length_drop]
  omega

theorem listChunks_flatMap {α β : Type} (n : ℕ) (hn : 1 ≤ n) (f : α → List β) :
    ∀ (P : List α), (∀ r ∈ P, (f r).length = n) →
      listChunks (P.flatMap f) n = P.map f
  | [], _ => by simp [listChunks]
  | r :: rest, h => by
    rw [List.flatMap_cons, listChunks]
    have hfr : (f r).length = n := h r (by simp)
    have hne : ¬((f r ++ rest.flatMap f).isEmpty = true ∨ n = 0) := by
      refine not_or.mpr ⟨?_, by omega⟩
      simp only [List.isEmpty_iff, List.append_eq_nil, not_and]
      intro hfr0
      rw [hfr0] at hfr
      simp at hfr
      omega
    rw [if_neg hne, List.take_left' hfr, List.drop_left' hfr]
    simp only [List.map_cons, List.cons.injEq, true_and]
    exact listChunks_flatMap n hn f rest (fun x hx => h x (by simp [hx]))

theorem getD_map_lt {α β : Type} (f : α → β) (l : List α) (i : ℕ) (hi : i < l.length)
    (d : β) (d' : α) : (l.map f).getD i d = f (l.getD i d') := by
  rw [List.getD_eq_getElem?_getD, List.getD_eq_getElem?_getD, List.getElem?_map,
    List.getElem?_eq_getElem hi]
  simp

/-- Closed form of the joint scorer: entry `(i, j)` of the logits matrix is the
MLP score of `P_e[i] ++ L_e[j]`. -/
theorem model_forward_logits_closed_form (m : MLPParams) (k : ℕ) (hk : 1 ≤ k)
    (P_e L_e : List (List ℚ)) (ha : 1 ≤ P_e.length) (hb : 1 ≤ L_e.length) :
    model_forward_logits P_e L_e m k
      = P_e.map (fun p => L_e.map (fun l => mlpScore m (p ++ l))) := by
  have hcs : 1 ≤ chunk_size_of P_e.length k := chunk_size_of_pos _ _ hk ha
  unfold model_forward_logits get_joint_embeddings output_layer_rowwise reshape_rows
  simp only
  rw [chunks_of, chunks_expand_flatten L_e _ hcs P_e, expandChunk, List.map_flatMap]
  simp only [List.map_map]
  exact listChunks_flatMap L_e.length hb _ P_e (fun r _ => by simp)

/-- C1: for positive batch sizes and any positive chunk count, the chunked
joint-embedding construction followed by the MLP head and the reshape yields
the same `[n_a, n_b]` logits tensor as the single-chunk computation (exact
arithmetic in place of floating-point tolerance); entry `(i, j)` is the score
of `P_e[i] ++ L_e[j]`, rows in ascending entity-A order and columns in
ascending entity-B order. -/
theorem chunked_forward_equals_unchunked (m : MLPParams) (P_e L_e : List (List ℚ))
    (k : ℕ) (hk : 1 ≤ k) (ha : 1 ≤ P_e.length) (hb : 1 ≤ L_e.length) :
    model_forward_logits P_e L_e m k = model_forward_logits P_e L_e m 1 ∧
    (model_forward_logits P_e L_e m k).length = P_e.length ∧
    (∀ row ∈ model_forward_logits P_e L_e m k, row.length = L_e.length) ∧
    (∀ i j : ℕ, i < P_e.length → j < L_e.length →
      ((model_forward_logits P_e L_e m k).getD i []).getD j 0
        = mlpScore m (P_e.getD i [] ++ L_e.getD j [])) := by
  have hcf := model_forward_logits_closed_form m k hk P_e L_e ha hb
  have hcf1 := model_forward_logits_closed_form m 1 (le_refl 1) P_e L_e ha hb
  refine ⟨hcf.trans hcf1.symm, ?_, ?_, ?_⟩
  · rw [hcf, List.length_map]
  · intro row hrow
    rw [hcf] at hrow
    obtain ⟨p, _, rfl⟩ := List.mem_map.mp hrow
    rw [List.length_map]
  · intro i j hi hj
    rw [hcf, getD_map_lt _ P_e i hi _ [], getD_map_lt _ L_e j hj _ []]

/-- C1 witness: a concrete instance of the chunked/unchunked agreement. -/
theorem chunked_forward_equals_unchunked_witness :
    (1 : ℕ) ≤ 15 ∧ (1 : ℕ) ≤ ([[(1 : ℚ)], [2]] : List (List ℚ)).length ∧
    model_forward_logits [[(1 : ℚ)], [2]] [[(3 : ℚ)]] ⟨[], [1, 1], 0⟩ 15
      = model_forward_logits [[(1 : ℚ)], [2]] [[(3 : ℚ)]] ⟨[], [1, 1], 0⟩ 1 :=
  ⟨by decide, by decide,
    (chunked_forward_equals_unchunked ⟨[], [1, 1], 0⟩ [[(1 : ℚ)], [2]] [[(3 : ℚ)]] 15
      (by decide) (by decide) (by decide)).1⟩

/-- C2 counterexample: with 16 entity-A rows and `num_chunks = 15` the chunk
size is `ceil(16/15) = 2` and the rows are split into 8 chunks, not 15, so the
partition does not have "a fixed number of chunks equal to num_chunks". -/
theorem chunk_count_not_fixed :
    (chunks_of (List.replicate 16 [(0 : ℚ)]) 15).length = 8 ∧ (8 : ℕ) ≠ 15 := by
  constructor
  · have h16 : (List.replicate 16 [(0 : ℚ)]).length = 16 := by simp
    rw [chunks_of, h16]
    have hcs : chunk_size_of 16 15 = 2 := by decide
    rw [hcs, listChunks_length 2 (by decide), h16]
  · decide

/-- C2 (amended): entity-A rows are partitioned, in order, into
`ceil(n_a / chunk_size)` chunks — at most `num_chunks`, but possibly fewer —
with chunk size `ceil(n_a / num_chunks)`; every row belongs to exactly one
chunk, every chunk except possibly the last has exactly `chunk_size` rows
(all chunks are nonempty and at most `chunk_size` long), and each chunk is
expanded against the full entity-B set. -/
theorem chunk_partition_props (P_e L_e : List (List ℚ)) (k : ℕ)
    (hk : 1 ≤ k) (hn : 1 ≤ P_e.length) :
    (chunks_of P_e k).flatten = P_e ∧
    (chunks_of P_e k).length
      = (P_e.length + chunk_size_of P_e.length k - 1) / chunk_size_of P_e.length k ∧
    (chunks_of P_e k).length ≤ k ∧
    (∀ c ∈ (chunks_of P_e k).dropLast, c.length = chunk_size_of P_e.length k) ∧
    (∀ c ∈ chunks_of P_e k, 1 ≤ c.length ∧ c.length ≤ chunk_size_of P_e.length k) ∧
    (get_joint_embeddings P_e L_e k).1
      = ((chunks_of P_e k).map (fun c => expandChunk c L_e)).flatten := by
  have hcs : 1 ≤ chunk_size_of P_e.length k := chunk_size_of_pos _ _ hk hn
  refine ⟨listChunks_flatten _ hcs P_e, listChunks_length _ hcs P_e, ?_, ?_, ?_, rfl⟩
  · rw [chunks_of, listChunks_length _ hcs P_e]
    exact chunk_count_le_num_chunks P_e.length k hk hn
  · exact listChunks_dropLast_length _ hcs P_e
  · exact listChunks_mem_length _ hcs P_e

/-- C2 witness: the chunk partition at a concrete input. -/
theorem chunk_partition_props_witness :
    (1 : ℕ) ≤ 2 ∧ (1 : ℕ) ≤ ([[(1 : ℚ)], [2], [3]] : List (List ℚ)).length ∧
    (chunks_of [[(1 : ℚ)], [2], [3]] 2).flatten = [[(1 : ℚ)], [2], [3]] :=
  ⟨by decide, by decide,
    (chunk_partition_props [[(1 : ℚ)], [2], [3]] [[(4 : ℚ)]] 2 (by decide) (by decide)).1⟩

/- ================================================================
   Dynamic typing of the `num_chunks` parameter (`src/models/ProTCL.py`)
   ================================================================ -/

/-- A Python value flowing into the chunk-size arithmetic: an `int` or a `str`. -/
inductive PyVal where
  | int (n : ℤ)
  | str (s : String)

/-- A Python exception raised by that arithmetic. -/
inductive PyErr where
  | typeError
  | zeroDivisionError

/-- Python `+` on the values at hand: ints add, strings concatenate, and a
mixed `int + str` raises `TypeError`. -/
def pyAdd : PyVal → PyVal → Except PyErr PyVal
  | .int a, .int b => .ok (.int (a + b))
  | .str a, .str b => .ok (.str (a ++ b))
  | _, _ => .error .typeError

/-- Python `-` on the values at hand: defined on ints only. -/
def pySub : PyVal → PyVal → Except PyErr PyVal
  | .int a, .int b => .ok (.int (a - b))
  | _, _ => .error .typeError

/-- Python `//` (floor division): defined on ints, raising `ZeroDivisionError`
on a zero divisor; otherwise rounds toward negative infinity (`Int.fdiv`). -/
def pyFloorDiv : PyVal → PyVal → Except PyErr PyVal
  | .int a, .int b => if b = 0 then .error .zeroDivisionError else .ok (.int (a.fdiv b))
  | _, _ => .error .typeError

/-- The default of `_get_joint_embeddings`'s `num_chunks` parameter,
`os.environ.get("NUM_CHUNKS", 15)`: the environment value is a string when the
variable is set, and the `int` 15 otherwise. -/
def num_chunks_param (env_value : Option String) : PyVal :=
  match env_value with
  | some s => .str s
  | none => .int 15

/-- The chunk-size expression of `_get_joint_embeddings`:
`(num_sequences + num_chunks - 1) // num_chunks`. -/
def chunk_size_expr (num_sequences : ℤ) (num_chunks : PyVal) : Except PyErr PyVal := do
  let t1 ← pyAdd (.int num_sequences) num_chunks
  let t2 ← pySub t1 (.int 1)
  pyFloorDiv t2 num_chunks

/-- C9: whenever the `NUM_CHUNKS` environment variable is set, its value
reaches the chunk-size arithmetic as a string, so `_get_joint_embeddings`
raises `TypeError` for every input batch; with the variable unset the default
`int` 15 makes the computation succeed, so the chunk count is only usable at
its default value. -/
theorem num_chunks_env_string_type_error (s : String) (n : ℤ) :
    chunk_size_expr n (num_chunks_param (some s)) = .error .typeError ∧
    chunk_size_expr n (num_chunks_param none) = .ok (.int ((n + 15 - 1).fdiv 15)) := by
  constructor
  · rfl
  · rfl

/- ================================================================
   Metric & Threshold Engine (`src/models/ProTCLTrainer.py`)
   ================================================================ -/

/-- The candidate decision thresholds of `find_optimal_threshold`,
`np.arange(0.1, 1, 0.01)`, in exact arithmetic: the 90 rationals
`0.10, 0.11, ..., 0.99` in ascending order. -/
def threshold_candidates : List ℚ :=
  (List.range 90).map (fun i : ℕ => 1 / 10 + (i : ℚ) / 100)

/-- The running-best selection loop shared by `find_optimal_threshold`
(payload: the threshold itself) and the validation checkpointing (payload: the
saved model state): scan a list, replacing the current best exactly when the
new value is strictly greater (`if score > best_score`). -/
def bestSelect {ι β : Type} (val : ι → ℚ) (pay : ι → β) : β × ℚ → List ι → β × ℚ
  | b, [] => b
  | b, x :: xs => bestSelect val pay (if b.2 < val x then (pay x, val x) else b) xs

/-- The sweep-and-select phase of `find_optimal_threshold`, given the scalar
metric score of each candidate threshold on the full concatenated tensors
(`EvalMetrics` itself is not part of the source tree; a fresh accumulator per
candidate evaluated on fixed tensors is a pure function of the threshold).
`best_th` and `best_score` are initialized to `0.0`. -/
def find_optimal_threshold (score : ℚ → ℚ) : ℚ × ℚ :=
  bestSelect score id ((0 : ℚ), (0 : ℚ)) threshold_candidates

theorem bestSelect_snd_eq_foldl_max {ι β : Type} (val : ι → ℚ) (pay : ι → β) :
    ∀ (l : List ι) (b : β × ℚ),
      (bestSelect val pay b l).2 = l.foldl (fun acc x => max acc (val x)) b.2
  | [], _ => rfl
  | x :: xs, b => by
    simp only [bestSelect, List.foldl_cons]
    by_cases h : b.2 < val x
    · rw [if_pos h, bestSelect_snd_eq_foldl_max val pay xs]
      simp [max_eq_right (le_of_lt h)]
    · rw [if_neg h, bestSelect_snd_eq_foldl_max val pay xs]
      simp [max_eq_left (le_of_not_lt h)]

theorem bestSelect_all_le {ι β : Type} (val : ι → ℚ) (pay : ι → β) :
    ∀ (l : List ι) (b : β × ℚ), (∀ x ∈ l, val x ≤ b.2) → bestSelect val pay b l = b
  | [], _, _ => rfl
  | x :: xs, b, h => by
    simp only [bestSelect]
    rw [if_neg (not_lt.mpr (h x (by simp)))]
    exact bestSelect_all_le val pay xs b (fun y hy => h y (by simp [hy]))

theorem bestSelect_split {ι β : Type} (val : ι → ℚ) (pay : ι → β) :
    ∀ (l : List ι) (b : β × ℚ), (∃ x ∈ l, b.2 < val x) →
      ∃ l₁ x l₂, l = l₁ ++ x :: l₂ ∧ bestSelect val pay b l = (pay x, val x) ∧
        (∀ y ∈ l₁, val y < val x) ∧ (∀ y ∈ l₂, val y ≤ val x) ∧ b.2 < val x
  | [], _, h => by simp at h
  | x :: xs, b, h => by
    simp only [bestSelect]
    by_cases hx : b.2 < val x
    · rw [if_pos hx]
      by_cases hrest : ∃ y ∈ xs, val x < val y
      · obtain ⟨l₁, z, l₂, heq, hsel, hlt, hle, hgt⟩ :=
          bestSelect_split val pay xs (pay x, val x) hrest
        refine ⟨x :: l₁, z, l₂, by simp [heq], hsel, ?_, hle, lt_trans hx hgt⟩
        intro y hy
        rcases List.mem_cons.mp hy with rfl | hy'
        · exact hgt
        · exact hlt y hy'
      · push_neg at hrest
        rw [bestSelect_all_le val pay xs _ (by simpa using hrest)]
        exact ⟨[], x, xs, by simp, rfl, by simp, by simpa using hrest, hx⟩
    · rw [if_neg hx]
      have h' : ∃ y ∈ xs, b.2 < val y := by
        obtain ⟨y, hy, hvy⟩ := h
        rcases List.mem_cons.mp hy with rfl | hy'
        · exact absurd hvy hx
        · exact ⟨y, hy', hvy⟩
      obtain ⟨l₁, z, l₂, heq, hsel, hlt, hle, hgt⟩ := bestSelect_split val pay xs b h'
      refine ⟨x :: l₁, z, l₂, by simp [heq], hsel, ?_, hle, hgt⟩
      intro y hy
      rcases List.mem_cons.mp hy with rfl | hy'
      · exact lt_of_le_of_lt (not_lt.mp hx) hgt
      · exact hlt y hy'

theorem threshold_candidates_length : threshold_candidates.length = 90 := by
  simp [threshold_candidates]

theorem threshold_candidates_sorted : threshold_candidates.Pairwise (· < ·) := by
  refine List.Pairwise.map _ ?_ (List.pairwise_lt_range 90)
  intro a b hab
  have : (a : ℚ) < (b : ℚ) := by exact_mod_cast hab
  linarith

theorem threshold_candidates_getD (i : ℕ) (hi : i < 90) :
    threshold_candidates.getD i 0 = 1 / 10 + (i : ℚ) / 100 := by
  rw [threshold_candidates, getD_map_lt _ _ i (by simpa using hi) _ 0]
  congr 2
  rw [List.getD_eq_getElem?_getD, List.getElem?_range hi]
  rfl

theorem threshold_candidates_lower_bound : ∀ th ∈ threshold_candidates, 1 / 10 ≤ th := by
  intro th hth
  obtain ⟨i, _, rfl⟩ := List.mem_map.mp hth
  have hpos : (0 : ℚ) ≤ (i : ℚ) / 100 := by positivity
  linarith

/-- C3 counterexample: when every candidate threshold scores exactly `0.0`,
the loop never replaces the initialization, so `find_optimal_threshold`
returns threshold `0.0` — which is not one of the (tied) candidates — instead
of the lowest tied candidate `0.10`. -/
theorem tie_at_zero_returns_initialization :
    find_optimal_threshold (fun _ => 0) = (0, 0) ∧
    (0 : ℚ) ∉ threshold_candidates ∧ (1 / 10 : ℚ) ∈ threshold_candidates := by
  refine ⟨bestSelect_all_le _ _ _ _ (fun x _ => le_refl 0), ?_, ?_⟩
  · intro hmem
    have := threshold_candidates_lower_bound 0 hmem
    norm_num at this
  · refine List.mem_map.mpr ⟨0, by simp, by norm_num⟩

/-- C3 (amended): `find_optimal_threshold` sweeps the 90 candidates
`0.10, 0.11, ..., 0.99` in ascending order, scoring each against the full
concatenated tensors, and — provided some candidate attains a strictly
positive score — returns the candidate with the greatest score together with
that score, keeping the lower threshold on ties because the running best
(initialized to `0.0`) is replaced only on a strictly greater score.  (When no
candidate scores above `0.0` the initialization `(0.0, 0.0)` is returned
instead; see the counterexample.) -/
theorem find_optimal_threshold_argmax (score : ℚ → ℚ)
    (hpos : ∃ th ∈ threshold_candidates, 0 < score th) :
    threshold_candidates.length = 90 ∧
    threshold_candidates.Pairwise (· < ·) ∧
    (∀ i : ℕ, i < 90 → threshold_candidates.getD i 0 = 1 / 10 + (i : ℚ) / 100) ∧
    (find_optimal_threshold score).1 ∈ threshold_candidates ∧
    score (find_optimal_threshold score).1 = (find_optimal_threshold score).2 ∧
    (∀ th ∈ threshold_candidates, score th ≤ (find_optimal_threshold score).2) ∧
    (∀ th ∈ threshold_candidates, score th = (find_optimal_threshold score).2 →
      (find_optimal_threshold score).1 ≤ th) := by
  obtain ⟨l₁, x, l₂, heq, hsel, hlt, hle, _⟩ :=
    bestSelect_split score id threshold_candidates ((0 : ℚ), (0 : ℚ)) hpos
  have hfind : find_optimal_threshold score = (x, score x) := hsel
  have hsorted := threshold_candidates_sorted
  rw [heq] at hsorted
  have hx_lt_l₂ : ∀ y ∈ l₂, x < y := by
    have := (List.pairwise_append.mp hsorted).2.1
    exact fun y hy => (List.pairwise_cons.mp this).1 y hy
  refine ⟨threshold_candidates_length, threshold_candidates_sorted,
    threshold_candidates_getD, ?_, ?_, ?_, ?_⟩
  · rw [hfind]
    rw [heq]
    simp
  · rw [hfind]
  · intro th hth
    rw [hfind]
    rw [heq] at hth
    rcases List.mem_append.mp hth with h1 | h2
    · exact le_of_lt (hlt th h1)
    · rcases List.mem_cons.mp h2 with rfl | h3
      · exact le_refl _
      · exact hle th h3
  · intro th hth hscore
    rw [hfind] at hscore ⊢
    rw [heq] at hth
    rcases List.mem_append.mp hth with h1 | h2
    · exact absurd hscore (ne_of_lt (hlt th h1))
    · rcases List.mem_cons.mp h2 with rfl | h3
      · exact le_refl _
      · exact le_of_lt (hx_lt_l₂ th h3)

/-- C3 witness: the sweep at the identity score function. -/
theorem find_optimal_threshold_argmax_witness :
    (∃ th ∈ threshold_candidates, 0 < id th) ∧
    (find_optimal_threshold id).1 ∈ threshold_candidates := by
  have h : ∃ th ∈ threshold_candidates, 0 < id th :=
    ⟨1 / 10, List.mem_map.mpr ⟨0, by simp, by norm_num⟩, by norm_num⟩
  exact ⟨h, (find_optimal_threshold_argmax id h).2.2.2.1⟩

/-- C10: when no candidate threshold attains a strictly positive score,
`find_optimal_threshold` returns the initialization `(0.0, 0.0)`; the returned
threshold `0.0` lies outside the swept candidate set and outside the open
interval `(0, 1)`. -/
theorem no_positive_score_returns_zero (score : ℚ → ℚ)
    (h : ∀ th ∈ threshold_candidates, ¬ (0 < score th)) :
    find_optimal_threshold score = (0, 0) ∧
    (0 : ℚ) ∉ threshold_candidates ∧
    (0 : ℚ) ∉ Set.Ioo (0 : ℚ) 1 := by
  refine ⟨bestSelect_all_le _ _ _ _ (fun x hx => not_lt.mp (h x hx)), ?_, ?_⟩
  · intro hmem
    have := threshold_candidates_lower_bound 0 hmem
    norm_num at this
  · simp [Set.mem_Ioo]

/-- C10 witness: the all-zero score function. -/
theorem no_positive_score_returns_zero_witness :
    (∀ th ∈ threshold_candidates, ¬ (0 < (fun _ : ℚ => (0 : ℚ)) th)) ∧
    find_optimal_threshold (fun _ => (0 : ℚ)) = (0, 0) := by
  have h : ∀ th ∈ threshold_candidates, ¬ (0 < (fun _ : ℚ => (0 : ℚ)) th) := by
    intro th _
    norm_num
  exact ⟨h, (no_positive_score_returns_zero (fun _ => 0) h).1⟩

/- ================================================================
   Empty-loader boundary (`find_optimal_threshold` / `evaluate`)
   ================================================================ -/

/-- `torch.cat` over a Python list of tensors: raises (`none`) on an empty
list, otherwise concatenates. -/
def torch_cat {α : Type} (tensors : List (List α)) : Option (List α) :=
  if tensors.isEmpty then none else some tensors.flatten

/-- Python division as it appears in `evaluate`'s
`avg_loss = total_loss / len(data_loader)`: raises `ZeroDivisionError`
(`none`) when the divisor is zero. -/
def python_div (a b : ℚ) : Option ℚ :=
  if b = 0 then none else some (a / b)

/-- The accumulation phase of `find_optimal_threshold`: per-batch probability
and label tensors are collected and concatenated with `torch.cat` before the
sweep; the whole call fails (`none`) when either concatenation raises. -/
def find_optimal_threshold_run (probabilityBatches labelBatches : List (List ℚ))
    (score : ℚ → List ℚ → List ℚ → ℚ) : Option (ℚ × ℚ) := do
  let allProbabilities ← torch_cat probabilityBatches
  let allLabels ← torch_cat labelBatches
  some (find_optimal_threshold (fun th => score th allProbabilities allLabels))

/-- `evaluate`'s average loss: the accumulated per-batch losses divided by the
number of batches, with no guard on the batch count. -/
def evaluate_avg_loss (batchLosses : List ℚ) : Option ℚ :=
  python_div batchLosses.sum (batchLosses.length : ℚ)

/-- C4: on a loader yielding zero batches, `find_optimal_threshold` does fail
(the unguarded `torch.cat` of an empty tensor list raises) rather than return
a metric value; but the boundary is not explicitly guarded as the claim
requires — `evaluate`'s average loss divides the accumulated loss `0` by the
batch count `0` and propagates the divide-by-zero (`ZeroDivisionError`). -/
theorem empty_loader_unguarded_divide_by_zero :
    (∀ score, find_optimal_threshold_run [] [] score = none) ∧
    evaluate_avg_loss [] = none ∧
    (([] : List ℚ).length : ℚ) = 0 := by
  refine ⟨fun score => rfl, ?_, rfl⟩
  rw [evaluate_avg_loss, python_div]
  simp

/- ================================================================
   Confidence Normalizer
   ================================================================ -/

/-- Modelled from the spec: `normalize_confidences` lives in
`src/utils/proteinfer.py`, which is imported by `ProTCLTrainer` but absent
from the source tree.  Per the spec, a label's normalized confidence is the
maximum of its own raw probability and the raw probabilities of every label
whose ancestor set (per `ancestor_map`) contains it — confidence propagates
up to all ontology ancestors via max.  Labels index columns `Fin L`; rows
`Fin n` are examples. -/
def normalize_confidences {n L : ℕ} (predictions : Fin n → Fin L → ℚ)
    (ancestor_map : Fin L → Finset (Fin L)) : Fin n → Fin L → ℚ :=
  fun i j =>
    (Finset.univ.filter (fun k => j ∈ ancestor_map k)).fold max (predictions i j)
      (predictions i)

/-- The ancestor map is a full transitive closure: an ancestor of an ancestor
is an ancestor. -/
def TransitivelyClosed {L : ℕ} (ancestor_map : Fin L → Finset (Fin L)) : Prop :=
  ∀ a b c : Fin L, a ∈ ancestor_map b → b ∈ ancestor_map c → a ∈ ancestor_map c

/-- C5: confidence normalization is idempotent whenever the supplied ancestor
map is a full transitive closure: `normalize(normalize(p)) = normalize(p)`. -/
theorem normalize_confidences_idempotent {n L : ℕ}
    (ancestor_map : Fin L → Finset (Fin L)) (h : TransitivelyClosed ancestor_map)
    (predictions : Fin n → Fin L → ℚ) :
    normalize_confidences (normalize_confidences predictions ancestor_map) ancestor_map
      = normalize_confidences predictions ancestor_map := by
  funext i j
  apply le_antisymm
  · rw [normalize_confidences, Finset.fold_max_le]
    refine ⟨le_refl _, ?_⟩
    intro k hk
    rw [normalize_confidences, Finset.fold_max_le]
    constructor
    · exact (Finset.le_fold_max _).mpr (Or.inr ⟨k, hk, le_refl _⟩)
    · intro m hm
      refine (Finset.le_fold_max _).mpr (Or.inr ⟨m, ?_, le_refl _⟩)
      simp only [Finset.mem_filter, Finset.mem_univ, true_and] at hk hm ⊢
      exact h j k m hk hm
  · exact (Finset.le_fold_max _).mpr (Or.inl (le_refl _))

/-- C5 witness: the spec's scenario — 4 labels, label 2 having label 0 as its
sole ancestor — on a concrete 2-example probability matrix. -/
theorem normalize_confidences_idempotent_witness :
    TransitivelyClosed (fun k : Fin 4 => if k = 2 then {0} else ∅) ∧
    normalize_confidences
        (normalize_confidences (fun i : Fin 2 => fun j : Fin 4 => (i : ℚ) + j)
          (fun k : Fin 4 => if k = 2 then {0} else ∅))
        (fun k : Fin 4 => if k = 2 then {0} else ∅)
      = normalize_confidences (fun i : Fin 2 => fun j : Fin 4 => (i : ℚ) + j)
          (fun k : Fin 4 => if k = 2 then {0} else ∅) := by
  have h : TransitivelyClosed (fun k : Fin 4 => if k = 2 then {0} else ∅) := by
    unfold TransitivelyClosed
    decide
  exact ⟨h, normalize_confidences_idempotent _ h _⟩

/- ================================================================
   Vocabulary construction (`src/data/datasets.py`)
   ================================================================ -/

/-- A Python string identifier, modeled as its list of code points (Python's
string comparison, hence `sorted`, is code-point lexicographic). -/
abbrev Identifier := List Char

/-- Python `sorted(list(s))` for a set `s` accumulated by union: deduplicate,
then sort into the unique ascending arrangement. -/
def sortedSet {α : Type} [LinearOrder α] [DecidableEq α] (gathered : List α) : List α :=
  List.insertionSort (· ≤ ·) gathered.dedup

/-- The shared shape of `_process_amino_acid_vocab`, `_process_label_vocab`
and `_process_sequence_id_vocab`: a supplied vocabulary file is used as-is
(`read_json` order), otherwise the vocabulary is built from the gathered
identifiers by set-union and sort. -/
def process_vocab {α : Type} [LinearOrder α] [DecidableEq α]
    (vocabulary_file : Option (List α)) (gathered : List α) : List α :=
  match vocabulary_file with
  | some vocab => vocab
  | none => sortedSet gathered

/-- `self.amino_acid_vocabulary.update(list(obs[0]))` over all records
(a record is the pair of sequence string and label-identifier list). -/
def gather_amino_acids (data : List (Identifier × List Identifier)) : List Char :=
  data.flatMap (fun obs => obs.1)

/-- `self.label_vocabulary.update(obs[1][1:])` over all records. -/
def gather_labels (data : List (Identifier × List Identifier)) : List Identifier :=
  data.flatMap (fun obs => obs.2.drop 1)

/-- `self.sequence_id_vocabulary.add(obs[1][0])` over all records. -/
def gather_sequence_ids (data : List (Identifier × List Identifier)) : List Identifier :=
  data.flatMap (fun obs => obs.2.take 1)

/-- Modelled from the spec: `get_vocab_mappings` (`src/utils/data.py`) is not
in the source tree; per the spec an identifier's integer ID is its position in
the vocabulary list. -/
def term2int {α : Type} [DecidableEq α] (vocabulary : List α) (t : α) : ℕ :=
  vocabulary.indexOf t

/-- Modelled from the spec: the inverse mapping of `get_vocab_mappings`,
position back to identifier. -/
def int2term {α : Type} (vocabulary : List α) (i : ℕ) (d : α) : α :=
  vocabulary.getD i d

/-- C6: with no vocabulary file the vocabulary is the set-union of the data
identifiers in ascending lexicographic order without duplicates, and integer
IDs are positions in that list — on `Q9Y6K9`, `P12345`, `O43561` the assigned
IDs are 0, 1, 2 in sorted order; with a supplied vocabulary file, the file's
order is used as-is and never re-sorted. -/
theorem vocab_sorted_ids_file_authoritative :
    (∀ (vocab gathered : List Identifier), process_vocab (some vocab) gathered = vocab) ∧
    (∀ gathered : List Identifier, (process_vocab none gathered).Sorted (· ≤ ·)) ∧
    (∀ gathered : List Identifier, (process_vocab none gathered).Nodup) ∧
    (∀ (gathered : List Identifier) (t : Identifier),
      t ∈ process_vocab none gathered ↔ t ∈ gathered) ∧
    (∀ (gathered : List Identifier) (i : ℕ),
      i < (process_vocab none gathered).length →
        term2int (process_vocab none gathered)
          (int2term (process_vocab none gathered) i []) = i) ∧
    process_vocab none [ "Q9Y6K9".toList, "P12345".toList, "O43561".toList ]
      = [ "O43561".toList, "P12345".toList, "Q9Y6K9".toList ] ∧
    term2int (process_vocab none [ "Q9Y6K9".toList, "P12345".toList, "O43561".toList ])
        "O43561".toList = 0 ∧
    term2int (process_vocab none [ "Q9Y6K9".toList, "P12345".toList, "O43561".toList ])
        "P12345".toList = 1 ∧
    term2int (process_vocab none [ "Q9Y6K9".toList, "P12345".toList, "O43561".toList ])
        "Q9Y6K9".toList = 2 := by
  have hnodup : ∀ gathered : List Identifier, (process_vocab none gathered).Nodup := by
    intro gathered
    rw [process_vocab, sortedSet]
    exact (List.perm_insertionSort (· ≤ ·) gathered.dedup).nodup_iff.mpr
      (List.nodup_dedup gathered)
  refine ⟨fun vocab gathered => rfl, ?_, hnodup, ?_, ?_, by decide, by decide, by decide,
    by decide⟩
  · intro gathered
    rw [process_vocab, sortedSet]
    exact List.sorted_insertionSort (· ≤ ·) gathered.dedup
  · intro gathered t
    rw [process_vocab, sortedSet,
      (List.perm_insertionSort (· ≤ ·) gathered.dedup).mem_iff, List.mem_dedup]
  · intro gathered i hi
    rw [term2int, int2term, List.getD_eq_getElem?_getD, List.getElem?_eq_getElem hi]
    exact List.indexOf_getElem (hnodup gathered) i hi

/-- C6 witness: the ID-equals-position law at a concrete generated vocabulary. -/
theorem vocab_sorted_ids_file_authoritative_witness :
    (0 < (process_vocab none [ "b".toList, "a".toList ]).length) ∧
    term2int (process_vocab none [ "b".toList, "a".toList ])
      (int2term (process_vocab none [ "b".toList, "a".toList ]) 0 []) = 0 :=
  ⟨by decide,
    vocab_sorted_ids_file_authoritative.2.2.2.2.1 [ "b".toList, "a".toList ] 0 (by decide)⟩

/- ================================================================
   Training loop (`src/models/ProTCLTrainer.py`)
   ================================================================ -/

/-- The optimizer-step condition inside `train`:
`batch_count % self.gradient_accumulation_steps == 0`. -/
def optimizer_step_invoked (gradient_accumulation_steps batch_count : ℕ) : Bool :=
  batch_count % gradient_accumulation_steps == 0

/-- The cumulative micro-batch counts (`batch_count` runs `1, 2, ...` across
epochs) at which `optimizer.step()` followed by `optimizer.zero_grad()` is
invoked during `num_batches` micro-batches. -/
def optimizer_step_batches (num_batches gradient_accumulation_steps : ℕ) : List ℕ :=
  ((List.range num_batches).map (· + 1)).filter
    (optimizer_step_invoked gradient_accumulation_steps)

/-- C7: with gradient accumulation `k`, the optimizer steps exactly at the
micro-batch counts in `[1, N]` that are multiples of `k` — `N / k` many steps,
one per `k` micro-batches, in increasing order, and never at a count that is
not a multiple of `k`. -/
theorem gradient_accumulation_steps_exact (N k : ℕ) :
    (∀ c : ℕ, c ∈ optimizer_step_batches N k ↔ (1 ≤ c ∧ c ≤ N ∧ c % k = 0)) ∧
    (optimizer_step_batches N k).length = N / k ∧
    (optimizer_step_batches N k).Pairwise (· < ·) := by
  refine ⟨?_, ?_, ?_⟩
  · intro c
    simp only [optimizer_step_batches, List.mem_filter, List.mem_map, List.mem_range,
      optimizer_step_invoked, beq_iff_eq]
    constructor
    · rintro ⟨⟨j, hj, rfl⟩, hmod⟩
      exact ⟨by omega, by omega, hmod⟩
    · rintro ⟨h1, h2, hmod⟩
      exact ⟨⟨c - 1, by omega, by omega⟩, hmod⟩
  · induction N with
    | zero => simp [optimizer_step_batches]
    | succ n ih =>
      rw [optimizer_step_batches, List.range_succ, List.map_append, List.filter_append]
      rw [List.length_append]
      have hbase : (((List.range n).map (· + 1)).filter
          (optimizer_step_invoked k)).length = n / k := ih
      rw [hbase, Nat.succ_div]
      by_cases hdvd : k ∣ n + 1
      · have hmod : (n + 1) % k = 0 := Nat.dvd_iff_mod_eq_zero.mp hdvd
        simp [optimizer_step_invoked, hmod, hdvd]
      · have hmod : (n + 1) % k ≠ 0 := fun hc =>
          hdvd (Nat.dvd_iff_mod_eq_zero.mpr hc)
        simp [optimizer_step_invoked, hmod, hdvd]
  · refine List.Pairwise.filter _ ?_
    refine List.Pairwise.map _ ?_ (List.pairwise_lt_range N)
    intro a b hab
    omega

/-- C8 state: the running best validation metric (initialized to `0.0`) and
the checkpoint contents of `self.model_path` (`none` until the first save). -/
def run_validations {Θ : Type} (validations : List (Θ × ℚ)) : Option Θ × ℚ :=
  bestSelect Prod.snd (fun v => some v.1) (none, 0) validations

/-- `validate`'s checkpointing step for one validation event: save the model
state and update `best_val_metric` exactly when the metric strictly exceeds
the best so far. -/
def validate_step {Θ : Type} (state : Option Θ × ℚ) (params : Θ) (metric : ℚ) :
    Option Θ × ℚ :=
  if state.2 < metric then (some params, metric) else state

/-- The end of `train`:
`self.model.load_state_dict(torch.load(self.model_path))` — the parameters
restored into the model are the checkpoint contents. -/
def restore_best_checkpoint {Θ : Type} (validations : List (Θ × ℚ)) : Option Θ :=
  (run_validations validations).1

theorem run_validations_foldl {Θ : Type} (validations : List (Θ × ℚ)) :
    run_validations validations
      = validations.foldl (fun s v => validate_step s v.1 v.2) (none, 0) := by
  rw [run_validations]
  generalize ((none : Option Θ), (0 : ℚ)) = b
  induction validations generalizing b with
  | nil => rfl
  | cons x xs ih => simp only [bestSelect, List.foldl_cons, validate_step, ih]

/-- C8: during validation the model state is persisted exactly when the
optimization metric strictly exceeds the best seen so far (equal or lower
values leave both the checkpoint and the recorded best unchanged), the
recorded best is updated on each save, and at the end of training the model's
parameters are restored from the checkpoint — which holds the state of the
first validation event attaining the overall maximum metric. -/
theorem best_checkpoint_strict_improvement {Θ : Type} (validations : List (Θ × ℚ))
    (h : ∃ v ∈ validations, 0 < v.2) :
    (∀ (s : Option Θ × ℚ) (p : Θ) (m : ℚ), m ≤ s.2 → validate_step s p m = s) ∧
    (∀ (s : Option Θ × ℚ) (p : Θ) (m : ℚ), s.2 < m → validate_step s p m = (some p, m)) ∧
    (∃ l₁ v l₂, validations = l₁ ++ v :: l₂ ∧
      restore_best_checkpoint validations = some v.1 ∧
      (run_validations validations).2 = v.2 ∧
      (∀ u ∈ l₁, u.2 < v.2) ∧ (∀ u ∈ l₂, u.2 ≤ v.2)) := by
  refine ⟨?_, ?_, ?_⟩
  · intro s p m hm
    rw [validate_step, if_neg (not_lt.mpr hm)]
  · intro s p m hm
    rw [validate_step, if_pos hm]
  · obtain ⟨l₁, v, l₂, heq, hsel, hlt, hle, _⟩ :=
      bestSelect_split Prod.snd (fun v => some v.1) validations
        ((none : Option Θ), (0 : ℚ)) h
    refine ⟨l₁, v, l₂, heq, ?_, ?_, hlt, hle⟩
    · rw [restore_best_checkpoint, run_validations, hsel]
    · rw [run_validations, hsel]

/-- C8 witness: a single validation event with a positive metric. -/
theorem best_checkpoint_strict_improvement_witness :
    (∃ v ∈ [((7 : ℕ), (1 : ℚ))], 0 < v.2) ∧
    validate_step ((none : Option ℕ), (5 : ℚ)) 3 4 = (none, 5) := by
  have h : ∃ v ∈ [((7 : ℕ), (1 : ℚ))], 0 < v.2 := ⟨(7, 1), by simp, by norm_num⟩
  exact ⟨h, (best_checkpoint_strict_improvement _ h).1 (none, 5) 3 4 (by norm_num)⟩
